import Mathlib

/-!
Verification of the varivari VarInt codec (shallow embedding of `src/lib.rs`).

Bytes are modelled as `Nat` values below 256; `u32` values as `Nat` below
`2 ^ 32`.  Rust's `& / | / >> / <<` on machine integers become `&&& / ||| /
>>> / <<<` on `Nat`, with an explicit `% 2 ^ 32` where a `u32` shift can
overflow.  Slices and the 5-byte backing buffer `VarIntInner` become
`List Nat`.  The fallible conversions return `Option`/`Except`, and the
`unreachable_unchecked` at the end of `From<u32>` is modelled by the `none`
branch of `fromU32`.
-/

namespace Varivari

/-- Constant `MSB: u8 = 0b1000_0000` from `src/lib.rs`. -/
def MSB : Nat := 128

/-- Constant `VarInt::MAX_LEN = 5`. -/
def MAX_LEN : Nat := 5

/-- Constant `VarInt::LAST_BYTE_MASK = 0b0000_1111` (declared in the source, never used). -/
def LAST_BYTE_MASK : Nat := 15

/-- Rust `enum VarIntFindResult { Tight(&[u8]), Loose(&[u8], usize), Invalid }`. -/
inductive VarIntFindResult where
  | Tight : List Nat → VarIntFindResult
  | Loose : List Nat → Nat → VarIntFindResult
  | Invalid : VarIntFindResult
deriving DecidableEq, Repr

/-- Rust `struct VarInt { inner: VarIntInner, len: u8 }`. -/
structure VarInt where
  inner : List Nat
  len : Nat
deriving DecidableEq, Repr

/-- The index search inside `VarInt::find_loose`:
`slice.iter().enumerate().take(MAX_LEN).find(|(_, &byte)| byte & MSB == 0)`,
returning the index of the first byte (within the first `fuel` bytes) whose
continuation bit is clear. -/
def findTermIdx : List Nat → Nat → Option Nat
  | [], _ => none
  | _, 0 => none
  | b :: rest, fuel + 1 =>
    if b &&& MSB = 0 then some 0
    else (findTermIdx rest fuel).map (· + 1)

/-- Function `VarInt::find_loose`: the terminated prefix `&slice[..=idx]`, if a byte with
clear continuation bit occurs within the first `MAX_LEN` bytes. -/
def find_loose (slice : List Nat) : Option (List Nat) :=
  (findTermIdx slice MAX_LEN).map (fun idx => slice.take (idx + 1))

/-- The backwards search inside `VarInt::find_from_loose`:
`slice.iter().enumerate().rev().find(|(_, &byte)| byte & !MSB != 0)` — the
highest index whose byte has nonzero low 7 bits (the caller applies it to
`dropLast`, which models the `.skip(1)` after `.rev()`). -/
def revFindNonzeroIdx : List Nat → Option Nat
  | [] => none
  | b :: rest =>
    match revFindNonzeroIdx rest with
    | some i => some (i + 1)
    | none => if b &&& 127 ≠ 0 then some 0 else none

/-- Function `VarInt::find_from_loose` from the top-level `src/lib.rs`: `Tight` when the
slice has length 1 or its last byte has nonzero low bits; otherwise scan
backwards, skipping the last byte, for a byte with nonzero low bits — `Loose`
with effective length `idx + 1` if found, `Invalid` if not. -/
def find_from_loose (slice : List Nat) : VarIntFindResult :=
  if slice.length = 1 ∨ (slice.getLastD 0) &&& 127 ≠ 0 then
    .Tight slice
  else
    match revFindNonzeroIdx slice.dropLast with
    | some idx => .Loose slice (idx + 1)
    | none => .Invalid

/-- Function `VarInt::find`: `find_loose` then `find_from_loose`, `Invalid` when no
terminated prefix exists. -/
def find (slice : List Nat) : VarIntFindResult :=
  match find_loose slice with
  | none => .Invalid
  | some s => find_from_loose s

/-- The emission loop of `impl From<u32> for VarInt`, one recursive step per
`for (idx, byte) in buf.iter_mut().enumerate()` iteration.  `none` models
falling out of the loop into `unreachable_unchecked()`. -/
def fromU32Go : Nat → Nat → Nat → List Nat → Option VarInt
  | _, _, 0, _ => none
  | source, idx, fuel + 1, buf =>
    let byte := (source % 256) &&& 127
    let source' := source >>> 7
    if source' = 0 then
      some ⟨buf.set idx byte, idx + 1⟩
    else
      fromU32Go source' (idx + 1) fuel (buf.set idx (byte ||| MSB))

/-- Conversion `impl From<u32> for VarInt` (its `unreachable_unchecked` tail is `none`). -/
def fromU32 (source : Nat) : Option VarInt :=
  fromU32Go source 0 MAX_LEN (List.replicate MAX_LEN 0)

/-- The fold of `impl From<VarInt> for u32`:
`result |= (byte as u32) << (idx * 7)` over all five buffer bytes, the shift
wrapping at 32 bits as in Rust. -/
def u32FromGo : List Nat → Nat → Nat → Nat
  | [], _, result => result
  | b :: rest, idx, result =>
    u32FromGo rest (idx + 1) (result ||| ((b <<< (idx * 7)) % 4294967296))

/-- Conversion `impl From<VarInt> for u32`. -/
def u32FromVarInt (source : VarInt) : Nat :=
  u32FromGo source.inner 0 0

/-- Operation `source[len..].fill(0)` on the 5-byte array `source`. -/
def fillZeroFrom (source : List Nat) (len : Nat) : List Nat :=
  source.take len ++ List.replicate (MAX_LEN - len) 0

/-- Conversion `impl TryFrom<VarIntInner> for VarInt` (`[u8; 5]` decode): classify, mask
the byte at `actual_len - 1` in the `Loose` case, zero-fill past the length. -/
def tryFromInner (source : List Nat) : Option VarInt :=
  match find source with
  | .Invalid => none
  | .Tight slice =>
    let len := slice.length
    some ⟨fillZeroFrom source len, len⟩
  | .Loose _ actualLen =>
    let source' := source.set (actualLen - 1) ((source.getD (actualLen - 1) 0) &&& 127)
    some ⟨fillZeroFrom source' actualLen, actualLen⟩

/-- Conversion `impl TryFrom<&[u8]> for VarInt`: classify, then (in the `Loose` case) mask
`buf[actual_len - 1]` of the still all-zero scratch buffer, and only afterwards
copy `source[..len]` over `buf[..len]` — exactly as the source does it. -/
def tryFromSlice (source : List Nat) : Option VarInt :=
  match find source with
  | .Invalid => none
  | .Tight slice =>
    let len := slice.length
    let buf := List.replicate MAX_LEN 0
    some ⟨source.take len ++ buf.drop len, len⟩
  | .Loose _ actualLen =>
    let buf := List.replicate MAX_LEN 0
    let buf := buf.set (actualLen - 1) ((buf.getD (actualLen - 1) 0) &&& 127)
    some ⟨source.take actualLen ++ buf.drop actualLen, actualLen⟩

/-- The two error kinds `read_varint` produces. -/
inductive ReadError where
  | UnexpectedEof
  | InvalidData
deriving DecidableEq, Repr

/-- The byte-by-byte read loop of `VarIntReadExt::read_varint`: the stream is a
list of bytes (empty = EOF, i.e. `read` returning 0).  Returns the filled
buffer and `len` (`0` when all `MAX_LEN` iterations ran without a break). -/
def readLoopGo : List Nat → Nat → Nat → List Nat → Except ReadError (List Nat × Nat)
  | _, _, 0, buf => .ok (buf, 0)
  | [], _, _ + 1, _ => .error .UnexpectedEof
  | b :: rest, idx, fuel + 1, buf =>
    let buf' := buf.set idx b
    if b &&& MSB ≠ MSB then .ok (buf', idx + 1)
    else readLoopGo rest (idx + 1) fuel buf'

/-- Operation `buf[actual_len..len].fill(0)` on the 5-byte buffer `buf`. -/
def fillZeroRange (buf : List Nat) (lo hi : Nat) : List Nat :=
  buf.take lo ++ List.replicate (hi - lo) 0 ++ buf.drop hi

/-- Function `VarIntReadExt::read_varint` from the top-level `src/lib.rs`: read bytes
until a clear continuation bit, classify the prefix, and in the `Loose` case
apply `buf[actual_len - 1] &= MSB` and `buf[actual_len..len].fill(0)` (the
mask and the unchanged `len` are verbatim from the source). -/
def read_varint (stream : List Nat) : Except ReadError VarInt :=
  match readLoopGo stream 0 MAX_LEN (List.replicate MAX_LEN 0) with
  | .error e => .error e
  | .ok (buf, len) =>
    if len = 0 then .error .InvalidData
    else
      match find_from_loose (buf.take len) with
      | .Tight _ => .ok ⟨buf, len⟩
      | .Loose _ actualLen =>
        let buf' := buf.set (actualLen - 1) ((buf.getD (actualLen - 1) 0) &&& MSB)
        .ok ⟨fillZeroRange buf' actualLen len, len⟩
      | .Invalid => .error .InvalidData

end Varivari

namespace Varivari

/-! Bit-twiddling facts about bytes, proved by checking all byte values. -/

theorem land127_lt (x : Nat) (h : x < 128) : x &&& 127 = x :=
  (by decide : ∀ x < 128, x &&& 127 = x) x h

theorem land128_lt (x : Nat) (h : x < 128) : x &&& 128 = 0 :=
  (by decide : ∀ x < 128, x &&& 128 = 0) x h

theorem land128_add (x : Nat) (h : x < 128) : (x + 128) &&& 128 = 128 :=
  (by decide : ∀ x < 128, (x + 128) &&& 128 = 128) x h

theorem lor128 (x : Nat) (h : x < 128) : x ||| 128 = x + 128 :=
  (by decide : ∀ x < 128, x ||| 128 = x + 128) x h

set_option maxRecDepth 4096 in
theorem land127_mod256_ball : ∀ y < 256, y &&& 127 = y % 128 := by decide

theorem land127_mod256 (w : Nat) : (w % 256) &&& 127 = w % 128 := by
  rw [land127_mod256_ball (w % 256) (Nat.mod_lt _ (by norm_num)),
    Nat.mod_mod_of_dvd w (by norm_num)]

/-! The exact buffers `From<u32>` produces, one lemma per resulting length. -/

theorem fromU32_eq_one (v : Nat) (h : v < 128) :
    fromU32 v = some ⟨[v, 0, 0, 0, 0], 1⟩ := by
  simp only [fromU32, fromU32Go, MAX_LEN, MSB, List.replicate, Nat.shiftRight_eq_div_pow]
  norm_num
  rw [if_pos (by omega : v / 128 = 0), land127_mod256, Nat.mod_eq_of_lt h]

theorem fromU32_eq_two (v : Nat) (h1 : 128 ≤ v) (h2 : v < 16384) :
    fromU32 v = some ⟨[v % 128 + 128, v / 128, 0, 0, 0], 2⟩ := by
  simp only [fromU32, fromU32Go, MAX_LEN, MSB, List.replicate, Nat.shiftRight_eq_div_pow]
  norm_num
  rw [if_neg (by omega : ¬ v / 128 = 0), if_pos (by omega : v / 128 / 128 = 0)]
  simp only [land127_mod256]
  rw [lor128 (v % 128) (by omega), Nat.mod_eq_of_lt (by omega : v / 128 < 128)]

theorem fromU32_eq_three (v : Nat) (h1 : 16384 ≤ v) (h2 : v < 2097152) :
    fromU32 v = some ⟨[v % 128 + 128, v / 128 % 128 + 128, v / 128 / 128, 0, 0], 3⟩ := by
  simp only [fromU32, fromU32Go, MAX_LEN, MSB, List.replicate, Nat.shiftRight_eq_div_pow]
  norm_num
  rw [if_neg (by omega : ¬ v / 128 = 0), if_neg (by omega : ¬ v / 128 / 128 = 0),
    if_pos (by omega : v / 128 / 128 / 128 = 0)]
  simp only [land127_mod256]
  rw [lor128 (v % 128) (by omega), lor128 (v / 128 % 128) (by omega),
    Nat.mod_eq_of_lt (by omega : v / 128 / 128 < 128)]

theorem fromU32_eq_four (v : Nat) (h1 : 2097152 ≤ v) (h2 : v < 268435456) :
    fromU32 v = some ⟨[v % 128 + 128, v / 128 % 128 + 128, v / 128 / 128 % 128 + 128,
      v / 128 / 128 / 128, 0], 4⟩ := by
  simp only [fromU32, fromU32Go, MAX_LEN, MSB, List.replicate, Nat.shiftRight_eq_div_pow]
  norm_num
  rw [if_neg (by omega : ¬ v / 128 = 0), if_neg (by omega : ¬ v / 128 / 128 = 0),
    if_neg (by omega : ¬ v / 128 / 128 / 128 = 0),
    if_pos (by omega : v / 128 / 128 / 128 / 128 = 0)]
  simp only [land127_mod256]
  rw [lor128 (v % 128) (by omega), lor128 (v / 128 % 128) (by omega),
    lor128 (v / 128 / 128 % 128) (by omega),
    Nat.mod_eq_of_lt (by omega : v / 128 / 128 / 128 < 128)]

theorem fromU32_eq_five (v : Nat) (h1 : 268435456 ≤ v) (h2 : v < 4294967296) :
    fromU32 v = some ⟨[v % 128 + 128, v / 128 % 128 + 128, v / 128 / 128 % 128 + 128,
      v / 128 / 128 / 128 % 128 + 128, v / 128 / 128 / 128 / 128], 5⟩ := by
  simp only [fromU32, fromU32Go, MAX_LEN, MSB, List.replicate, Nat.shiftRight_eq_div_pow]
  norm_num
  rw [if_neg (by omega : ¬ v / 128 = 0), if_neg (by omega : ¬ v / 128 / 128 = 0),
    if_neg (by omega : ¬ v / 128 / 128 / 128 = 0),
    if_neg (by omega : ¬ v / 128 / 128 / 128 / 128 = 0),
    if_pos (by omega : v / 128 / 128 / 128 / 128 / 128 = 0)]
  simp only [land127_mod256]
  rw [lor128 (v % 128) (by omega), lor128 (v / 128 % 128) (by omega),
    lor128 (v / 128 / 128 % 128) (by omega), lor128 (v / 128 / 128 / 128 % 128) (by omega),
    Nat.mod_eq_of_lt (by omega : v / 128 / 128 / 128 / 128 < 128)]

/-- C1: the round-trip fails at `v = 256`. `From<u32>` encodes 256 as
`[0x80, 0x02, 0, 0, 0]` (length 2) and `u32::from` folds the full bytes —
continuation bit included — back, yielding `0x80 ||| (0x02 <<< 7) = 384`,
not 256. -/
theorem C1_roundtrip_fails_at_256 :
    fromU32 256 = some ⟨[128, 2, 0, 0, 0], 2⟩ ∧
    u32FromVarInt ⟨[128, 2, 0, 0, 0], 2⟩ = 384 ∧ (384 : Nat) ≠ 256 := by
  decide

/-- C2: on input bytes `[0x81, 0x80, 0x00]` the classifier reports `Loose`
with effective length 1; `TryFrom<[u8; 5]>` masks the byte and returns
`0x01`, but `TryFrom<&[u8]>` copies the unmasked input byte `0x81` over the
buffer it had just masked, so the two decode paths disagree and the slice
path keeps the continuation bit. -/
theorem C2_slice_decode_skips_mask :
    find [129, 128, 0] = .Loose [129, 128, 0] 1 ∧
    tryFromInner [129, 128, 0, 0, 0] = some ⟨[1, 0, 0, 0, 0], 1⟩ ∧
    tryFromSlice [129, 128, 0] = some ⟨[129, 0, 0, 0, 0], 1⟩ ∧
    (129 : Nat) &&& 127 = 1 := by
  decide

/-- C3: on a stream yielding `[0x81, 0x80, 0x00]`, `read_varint` classifies
the three bytes as `Loose` with effective length 1, but then applies
`buf[0] &= MSB` (keeping only the continuation bit, `0x81 &&& 0x80 = 0x80`)
and leaves `len` at 3, instead of producing length 1 with byte `0x01`. -/
theorem C3_read_varint_wrong_mask :
    read_varint [129, 128, 0] = .ok ⟨[128, 0, 0, 0, 0], 3⟩ ∧
    (⟨[128, 0, 0, 0, 0], 3⟩ : VarInt) ≠ ⟨[1, 0, 0, 0, 0], 1⟩ :=
  ⟨rfl, by decide⟩

/-- C4 counterexample: on `[0x80, 0x00]` the classifier of the top-level
`src/lib.rs` reports `Invalid`, not `Loose` with effective length 1, and
`TryFrom<&[u8]>` therefore fails. -/
theorem C4_all_zero_groups_invalid :
    find [128, 0] ≠ .Loose [128, 0] 1 ∧
    find [128, 0] = .Invalid ∧
    tryFromSlice [128, 0] = none := by
  decide

/-- C5: the `VarInt` built by `TryFrom<&[u8]>` from `[0x81, 0x80, 0x00]` has
length 1 but its byte at index 0 is `0x81`, whose continuation bit is set —
the constructor invariant claimed by the spec is violated. -/
theorem C5_slice_decode_breaks_invariant :
    tryFromSlice [129, 128, 0] = some ⟨[129, 0, 0, 0, 0], 1⟩ ∧
    (129 : Nat) &&& 128 ≠ 0 := by
  decide

/-- C6 counterexample: decoding `[0xFF, 0xFF, 0xFF, 0xFF, 0x7F]` succeeds as
`Tight` with length 5 and stores the fifth byte `0x7F` unchanged — its top
nibble is 7, not 0, so bits 4–7 of the fifth byte are not masked on decode
(`LAST_BYTE_MASK` is declared but never applied). -/
theorem C6_top_nibble_not_masked :
    tryFromInner [255, 255, 255, 255, 127] = some ⟨[255, 255, 255, 255, 127], 5⟩ ∧
    (127 : Nat) >>> 4 ≠ 0 := by
  decide

/-- C6 (amended): encoding a u32 never produces a length-5 `VarInt` whose
fifth byte has nonzero bits 4–7, but decoding an input whose fifth byte has
nonzero bits 4–7 accepts it and stores the byte *unchanged* (no masking), so
a decoded length-5 `VarInt` may have a nonzero top nibble. -/
theorem C6_amended_top_nibble :
    (∀ v x, v < 4294967296 → fromU32 v = some x → x.len = 5 →
      (x.inner.getD 4 0) >>> 4 = 0) ∧
    tryFromInner [255, 255, 255, 255, 127] = some ⟨[255, 255, 255, 255, 127], 5⟩ := by
  refine ⟨?_, by decide⟩
  intro v x hv hx hlen
  rcases Nat.lt_or_ge v 128 with h | h1
  · rw [fromU32_eq_one v h] at hx
    injection hx with hx
    subst hx
    exact absurd hlen (by norm_num : ¬ (1:Nat) = 5)
  rcases Nat.lt_or_ge v 16384 with h | h2
  · rw [fromU32_eq_two v h1 h] at hx
    injection hx with hx
    subst hx
    exact absurd hlen (by norm_num : ¬ (2:Nat) = 5)
  rcases Nat.lt_or_ge v 2097152 with h | h3
  · rw [fromU32_eq_three v h2 h] at hx
    injection hx with hx
    subst hx
    exact absurd hlen (by norm_num : ¬ (3:Nat) = 5)
  rcases Nat.lt_or_ge v 268435456 with h | h4
  · rw [fromU32_eq_four v h3 h] at hx
    injection hx with hx
    subst hx
    exact absurd hlen (by norm_num : ¬ (4:Nat) = 5)
  · rw [fromU32_eq_five v h4 hv] at hx
    injection hx with hx
    subst hx
    show ([v % 128 + 128, v / 128 % 128 + 128, v / 128 / 128 % 128 + 128,
      v / 128 / 128 / 128 % 128 + 128, v / 128 / 128 / 128 / 128].getD 4 0) >>> 4 = 0
    simp only [List.getD, List.get?, Nat.shiftRight_eq_div_pow]
    norm_num
    omega

/-- Witness for C6: the encoding of `2^31` has length 5 and its fifth byte
(`0x08`) has a zero top nibble. -/
theorem C6_amended_top_nibble_witness :
    (([128, 128, 128, 128, 8] : List Nat).getD 4 0) >>> 4 = 0 :=
  C6_amended_top_nibble.1 2147483648 ⟨[128, 128, 128, 128, 8], 5⟩ (by norm_num) (by decide) rfl

/-- C8: `VarInt::find` applied to the 5-byte buffer produced by `From<u32>`
always reports `Tight`, and the tight slice is exactly the logical slice of
the encoded value (so its length equals the `VarInt`'s length). -/
theorem C8_encode_classifies_tight (v : Nat) (x : VarInt) (hv : v < 4294967296)
    (hx : fromU32 v = some x) :
    find x.inner = .Tight (x.inner.take x.len) ∧ (x.inner.take x.len).length = x.len := by
  rcases Nat.lt_or_ge v 128 with h | h1
  · rw [fromU32_eq_one v h] at hx
    injection hx with hx; subst hx
    have h0 : v &&& 128 = 0 := land128_lt v h
    exact ⟨by simp [find, find_loose, findTermIdx, find_from_loose, MSB, h0], by simp⟩
  rcases Nat.lt_or_ge v 16384 with h | h2
  · rw [fromU32_eq_two v h1 h] at hx
    injection hx with hx; subst hx
    have ha : (v % 128 + 128) &&& 128 = 128 := land128_add _ (by omega)
    have hb0 : (v / 128) &&& 128 = 0 := land128_lt _ (by omega)
    have hb7 : (v / 128) &&& 127 = v / 128 := land127_lt _ (by omega)
    have hbne : v / 128 ≠ 0 := by omega
    exact ⟨by simp [find, find_loose, findTermIdx, find_from_loose, MSB, List.getLastD,
      ha, hb0, hb7, hbne], by simp⟩
  rcases Nat.lt_or_ge v 2097152 with h | h3
  · rw [fromU32_eq_three v h2 h] at hx
    injection hx with hx; subst hx
    have ha : (v % 128 + 128) &&& 128 = 128 := land128_add _ (by omega)
    have ha2 : (v / 128 % 128 + 128) &&& 128 = 128 := land128_add _ (by omega)
    have hb0 : (v / 128 / 128) &&& 128 = 0 := land128_lt _ (by omega)
    have hb7 : (v / 128 / 128) &&& 127 = v / 128 / 128 := land127_lt _ (by omega)
    have hbne : v / 128 / 128 ≠ 0 := by omega
    exact ⟨by simp [find, find_loose, findTermIdx, find_from_loose, MSB, List.getLastD,
      ha, ha2, hb0, hb7, hbne], by simp⟩
  rcases Nat.lt_or_ge v 268435456 with h | h4
  · rw [fromU32_eq_four v h3 h] at hx
    injection hx with hx; subst hx
    have ha : (v % 128 + 128) &&& 128 = 128 := land128_add _ (by omega)
    have ha2 : (v / 128 % 128 + 128) &&& 128 = 128 := land128_add _ (by omega)
    have ha3 : (v / 128 / 128 % 128 + 128) &&& 128 = 128 := land128_add _ (by omega)
    have hb0 : (v / 128 / 128 / 128) &&& 128 = 0 := land128_lt _ (by omega)
    have hb7 : (v / 128 / 128 / 128) &&& 127 = v / 128 / 128 / 128 := land127_lt _ (by omega)
    have hbne : v / 128 / 128 / 128 ≠ 0 := by omega
    exact ⟨by simp [find, find_loose, findTermIdx, find_from_loose, MSB, List.getLastD,
      ha, ha2, ha3, hb0, hb7, hbne], by simp⟩
  · rw [fromU32_eq_five v h4 hv] at hx
    injection hx with hx; subst hx
    have ha : (v % 128 + 128) &&& 128 = 128 := land128_add _ (by omega)
    have ha2 : (v / 128 % 128 + 128) &&& 128 = 128 := land128_add _ (by omega)
    have ha3 : (v / 128 / 128 % 128 + 128) &&& 128 = 128 := land128_add _ (by omega)
    have ha4 : (v / 128 / 128 / 128 % 128 + 128) &&& 128 = 128 := land128_add _ (by omega)
    have hb0 : (v / 128 / 128 / 128 / 128) &&& 128 = 0 := land128_lt _ (by omega)
    have hb7 : (v / 128 / 128 / 128 / 128) &&& 127 = v / 128 / 128 / 128 / 128 :=
      land127_lt _ (by omega)
    have hbne : v / 128 / 128 / 128 / 128 ≠ 0 := by omega
    exact ⟨by simp [find, find_loose, findTermIdx, find_from_loose, MSB, List.getLastD,
      ha, ha2, ha3, ha4, hb0, hb7, hbne], by simp⟩

/-- Witness for C8: the encoding of 25565 (`[0xDD, 0xC7, 0x01, 0, 0]`,
length 3) classifies as `Tight` with the 3-byte logical slice. -/
theorem C8_encode_classifies_tight_witness :
    find [221, 199, 1, 0, 0] = .Tight [221, 199, 1] ∧
    ([221, 199, 1] : List Nat).length = 3 :=
  C8_encode_classifies_tight 25565 ⟨[221, 199, 1, 0, 0], 3⟩ (by norm_num) (by decide)

/-- C9: the emission loop of `From<u32>` returns within 5 iterations for
every 32-bit input, with a length in `1..=5`; the `unreachable_unchecked`
after the loop (the `none` branch of `fromU32`) is never reached. -/
theorem C9_encode_no_error_path (v : Nat) (hv : v < 4294967296) :
    ∃ x, fromU32 v = some x ∧ 1 ≤ x.len ∧ x.len ≤ 5 := by
  rcases Nat.lt_or_ge v 128 with h | h1
  · exact ⟨_, fromU32_eq_one v h, (by norm_num : (1:Nat) ≤ 1), (by norm_num : (1:Nat) ≤ 5)⟩
  rcases Nat.lt_or_ge v 16384 with h | h2
  · exact ⟨_, fromU32_eq_two v h1 h, (by norm_num : (1:Nat) ≤ 2), (by norm_num : (2:Nat) ≤ 5)⟩
  rcases Nat.lt_or_ge v 2097152 with h | h3
  · exact ⟨_, fromU32_eq_three v h2 h, (by norm_num : (1:Nat) ≤ 3), (by norm_num : (3:Nat) ≤ 5)⟩
  rcases Nat.lt_or_ge v 268435456 with h | h4
  · exact ⟨_, fromU32_eq_four v h3 h, (by norm_num : (1:Nat) ≤ 4), (by norm_num : (4:Nat) ≤ 5)⟩
  · exact ⟨_, fromU32_eq_five v h4 hv, (by norm_num : (1:Nat) ≤ 5), (by norm_num : (5:Nat) ≤ 5)⟩

/-- Witness for C9: the loop returns for input `0xFFFFFFFF`. -/
theorem C9_encode_no_error_path_witness :
    ∃ x, fromU32 4294967295 = some x ∧ 1 ≤ x.len ∧ x.len ≤ 5 :=
  C9_encode_no_error_path 4294967295 (by norm_num)


/-! Facts about the byte-by-byte read loop, for C7. -/

theorem readLoopGo_eof (s : List Nat) : ∀ idx fuel buf, 0 < fuel → s.length < fuel →
    (∀ b ∈ s, b &&& 128 = 128) → readLoopGo s idx fuel buf = .error .UnexpectedEof := by
  induction s with
  | nil =>
    intro idx fuel buf hf _ _
    cases fuel with
    | zero => omega
    | succ f => rfl
  | cons b rest ih =>
    intro idx fuel buf hf hl hall
    cases fuel with
    | zero => omega
    | succ f =>
      have hb : b &&& 128 = 128 := hall b (by simp)
      simp only [readLoopGo, MSB]
      rw [if_neg (by omega)]
      exact ih (idx + 1) f _ (by simp at hl; omega) (by simp at hl; omega)
        (fun x hx => hall x (by simp [hx]))

theorem readLoopGo_all_cont (fuel : Nat) : ∀ s idx buf, fuel ≤ s.length →
    (∀ i < fuel, (s.getD i 0) &&& 128 = 128) →
    ∃ buf', readLoopGo s idx fuel buf = .ok (buf', 0) := by
  induction fuel with
  | zero => intro s idx buf _ _; exact ⟨buf, by cases s <;> rfl⟩
  | succ f ih =>
    intro s idx buf hl hall
    cases s with
    | nil => simp at hl
    | cons b rest =>
      have hb : b &&& 128 = 128 := by have := hall 0 (by omega); simpa using this
      simp only [readLoopGo, MSB]
      rw [if_neg (by omega)]
      exact ih rest (idx + 1) (buf.set idx b) (by simp at hl; omega)
        (fun i hi => by have := hall (i + 1) (by omega); simpa using this)

/-- C7: `read_varint` fails with `UnexpectedEof` when the source runs out
before any terminator byte (fewer than 5 bytes, all with the continuation
bit set), fails with `InvalidData` when 5 bytes are read all with the
continuation bit set, succeeds on the source `[0x8C, 0x01]` with a length-2
`VarInt` decoding to 140, and fails with `UnexpectedEof` on `[0x8C]` alone. -/
theorem C7_read_error_taxonomy :
    (∀ s : List Nat, s.length < 5 → (∀ b ∈ s, b &&& 128 = 128) →
      read_varint s = .error .UnexpectedEof) ∧
    (∀ s : List Nat, 5 ≤ s.length → (∀ i < 5, (s.getD i 0) &&& 128 = 128) →
      read_varint s = .error .InvalidData) ∧
    read_varint [140, 1] = .ok ⟨[140, 1, 0, 0, 0], 2⟩ ∧
    u32FromVarInt ⟨[140, 1, 0, 0, 0], 2⟩ = 140 ∧
    read_varint [140] = .error .UnexpectedEof := by
  refine ⟨?_, ?_, rfl, by decide, rfl⟩
  · intro s h5 hall
    simp only [read_varint, MAX_LEN]
    rw [readLoopGo_eof s 0 5 (List.replicate 5 0) (by omega) h5 hall]
  · intro s h5 hall
    obtain ⟨buf', hb⟩ := readLoopGo_all_cont 5 s 0 (List.replicate 5 0) h5 hall
    simp only [read_varint, MAX_LEN]
    rw [hb]
    simp

/-- Witness for C7: five continuation bytes give `InvalidData`; a truncated
stream of two continuation bytes gives `UnexpectedEof`. -/
theorem C7_read_error_taxonomy_witness :
    read_varint [255, 255, 255, 255, 255] = .error .InvalidData ∧
    read_varint [128, 128] = .error .UnexpectedEof :=
  ⟨C7_read_error_taxonomy.2.1 [255, 255, 255, 255, 255] (by decide) (by decide),
   C7_read_error_taxonomy.1 [128, 128] (by decide) (by decide)⟩

/-! Facts about the terminator search, for C4 and C10. -/

theorem findTermIdx_concat (init : List Nat) (t : Nat) : ∀ fuel, init.length < fuel →
    (∀ b ∈ init, b &&& 128 = 128) → t &&& 128 = 0 →
    findTermIdx (init ++ [t]) fuel = some init.length := by
  induction init with
  | nil =>
    intro fuel hf _ ht
    cases fuel with
    | zero => omega
    | succ f => simp [findTermIdx, MSB, ht]
  | cons b rest ih =>
    intro fuel hf hall ht
    cases fuel with
    | zero => omega
    | succ f =>
      have hb : b &&& 128 = 128 := hall b (by simp)
      simp only [List.cons_append, List.append_eq, findTermIdx, MSB]
      rw [if_neg (by omega),
        ih f (by simp at hf; omega) (fun x hx => hall x (by simp [hx])) ht]
      simp

theorem revFindNonzeroIdx_none (l : List Nat) (h : ∀ b ∈ l, b &&& 127 = 0) :
    revFindNonzeroIdx l = none := by
  induction l with
  | nil => rfl
  | cons b rest ih =>
    have hb : b &&& 127 = 0 := h b (by simp)
    simp only [revFindNonzeroIdx]
    rw [ih (fun x hx => h x (by simp [hx]))]
    simp [hb]

/-- C4 (amended): a terminated prefix of length 2..=5 whose lower-7-bit
groups are all zero (continuation bytes followed by a terminator, every
byte zero after masking) classifies as `Invalid` — not `Loose` with
effective length 1 — and decoding it via `TryFrom<&[u8]>` fails. -/
theorem C4_amended_all_zero_invalid (init : List Nat) (t : Nat)
    (hlen : 1 ≤ init.length) (hlen5 : init.length + 1 ≤ 5)
    (hcont : ∀ b ∈ init, b &&& 128 = 128)
    (hterm : t &&& 128 = 0)
    (hzero : ∀ b ∈ init ++ [t], b &&& 127 = 0) :
    find (init ++ [t]) = .Invalid ∧ tryFromSlice (init ++ [t]) = none := by
  have htake : (init ++ [t]).take (init.length + 1) = init ++ [t] := by
    have hlen' : (init ++ [t]).length = init.length + 1 := by simp
    rw [← hlen']
    exact List.take_length _
  have hfind : find (init ++ [t]) = .Invalid := by
    unfold find find_loose
    rw [findTermIdx_concat init t MAX_LEN (by simp [MAX_LEN]; omega) hcont hterm]
    simp only [Option.map_some', htake]
    unfold find_from_loose
    rw [if_neg, List.dropLast_concat,
      revFindNonzeroIdx_none init (fun x hx => hzero x (by simp [hx]))]
    rw [List.getLastD_concat]
    push_neg
    constructor
    · simp only [List.length_append, List.length_singleton]
      omega
    · simpa using hzero t (by simp)
  exact ⟨hfind, by simp [tryFromSlice, hfind]⟩

/-- Witness for C4 (amended), at the slice `[0x80, 0x00]` of the original
claim. -/
theorem C4_amended_all_zero_invalid_witness :
    find ([128] ++ [0]) = .Invalid ∧ tryFromSlice ([128] ++ [0]) = none :=
  C4_amended_all_zero_invalid [128] 0 (by decide) (by decide) (by decide) (by decide)
    (by decide)

/-! Facts about `find_loose` and the backwards scan, for C10. -/

theorem findTermIdx_spec (l : List Nat) : ∀ fuel idx, findTermIdx l fuel = some idx →
    idx < fuel ∧ ∃ b, l[idx]? = some b ∧ b &&& 128 = 0 := by
  induction l with
  | nil => intro fuel idx h; simp [findTermIdx] at h
  | cons b rest ih =>
    intro fuel idx h
    cases fuel with
    | zero => simp [findTermIdx] at h
    | succ f =>
      simp only [findTermIdx, MSB] at h
      by_cases hb : b &&& 128 = 0
      · rw [if_pos hb] at h
        injection h with h
        subst h
        exact ⟨by omega, b, by simp, hb⟩
      · rw [if_neg hb] at h
        cases hr : findTermIdx rest f with
        | none => rw [hr] at h; simp at h
        | some j =>
          rw [hr] at h
          simp only [Option.map_some'] at h
          injection h with h
          subst h
          obtain ⟨hj, b', hb', hb2⟩ := ih f j hr
          exact ⟨by omega, b', by simpa using hb', hb2⟩

theorem revFindNonzeroIdx_lt (l : List Nat) : ∀ i, revFindNonzeroIdx l = some i →
    i < l.length := by
  induction l with
  | nil => intro i h; simp [revFindNonzeroIdx] at h
  | cons b rest ih =>
    intro i h
    simp only [revFindNonzeroIdx] at h
    cases hr : revFindNonzeroIdx rest with
    | some j =>
      rw [hr] at h
      injection h with h
      subst h
      have := ih j hr
      simp only [List.length_cons]
      omega
    | none =>
      rw [hr] at h
      by_cases hb : b &&& 127 ≠ 0
      · rw [if_pos hb] at h
        injection h with h
        subst h
        simp
      · rw [if_neg hb] at h
        cases h

theorem find_loose_spec (l s : List Nat) (h : find_loose l = some s) :
    ∃ idx b, idx < 5 ∧ l[idx]? = some b ∧ b &&& 128 = 0 ∧ s = l.take (idx + 1) ∧
      s.length = idx + 1 := by
  unfold find_loose at h
  cases hf : findTermIdx l MAX_LEN with
  | none => rw [hf] at h; simp at h
  | some idx =>
    rw [hf] at h
    simp only [Option.map_some'] at h
    obtain ⟨hlt, b, hb, hb0⟩ := findTermIdx_spec l MAX_LEN idx hf
    injection h with h
    subst h
    refine ⟨idx, b, by simpa [MAX_LEN] using hlt, hb, hb0, rfl, ?_⟩
    have hidx : idx < l.length := by
      by_contra hge
      rw [List.getElem?_eq_none_iff.mpr (by omega)] at hb
      cases hb
    rw [List.length_take]
    omega

/-- C10: `find_loose` returns `none` or a nonempty prefix of the input of at
most 5 bytes whose last byte has the continuation bit clear; the `Tight`
and `Loose` outcomes of `find` carry lengths bounded by the input length
(so every index used by the decode paths is in bounds), and `Invalid`
makes `TryFrom<&[u8]>` return an error value rather than fail abruptly. -/
theorem C10_find_loose_safety (l : List Nat) :
    (∀ s, find_loose l = some s → s ≠ [] ∧ s.length ≤ 5 ∧ (s.getLastD 0) &&& 128 = 0 ∧
      s = l.take s.length) ∧
    (∀ s, find l = .Tight s → 1 ≤ s.length ∧ s.length ≤ 5 ∧ s.length ≤ l.length) ∧
    (∀ s aL, find l = .Loose s aL →
      1 ≤ aL ∧ aL + 1 ≤ s.length ∧ s.length ≤ 5 ∧ s.length ≤ l.length) ∧
    (find l = .Invalid → tryFromSlice l = none) := by
  have main : ∀ s, find_loose l = some s → s ≠ [] ∧ s.length ≤ 5 ∧
      (s.getLastD 0) &&& 128 = 0 ∧ s = l.take s.length ∧ s.length ≤ l.length := by
    intro s h
    obtain ⟨idx, b, hlt, hb, hb0, hs, hlen⟩ := find_loose_spec l s h
    have hidx : idx < l.length := by
      by_contra hge
      rw [List.getElem?_eq_none_iff.mpr (by omega)] at hb
      cases hb
    have hlast : s.getLastD 0 = b := by
      rw [hs, List.take_succ, hb]
      exact List.getLastD_concat _ _ _
    refine ⟨?_, by omega, by rw [hlast]; exact hb0, by rw [hlen]; exact hs, by omega⟩
    intro hnil
    rw [hnil] at hlen
    simp at hlen
  refine ⟨fun s h => ⟨(main s h).1, (main s h).2.1, (main s h).2.2.1, (main s h).2.2.2.1⟩,
    ?_, ?_, ?_⟩
  · intro s h
    cases hf : find_loose l with
    | none =>
      rw [show find l = .Invalid from by unfold find; rw [hf]] at h
      cases h
    | some s' =>
      rw [show find l = find_from_loose s' from by unfold find; rw [hf]] at h
      obtain ⟨hnil, h5, hlast, htake, hle⟩ := main s' hf
      unfold find_from_loose at h
      by_cases hc : s'.length = 1 ∨ (s'.getLastD 0) &&& 127 ≠ 0
      · rw [if_pos hc] at h
        injection h with h
        subst h
        have hpos : 0 < s'.length := List.length_pos.mpr hnil
        exact ⟨by omega, h5, hle⟩
      · rw [if_neg hc] at h
        cases hr : revFindNonzeroIdx s'.dropLast with
        | some j => rw [hr] at h; cases h
        | none => rw [hr] at h; cases h
  · intro s aL h
    cases hf : find_loose l with
    | none =>
      rw [show find l = .Invalid from by unfold find; rw [hf]] at h
      cases h
    | some s' =>
      rw [show find l = find_from_loose s' from by unfold find; rw [hf]] at h
      obtain ⟨hnil, h5, hlast, htake, hle⟩ := main s' hf
      unfold find_from_loose at h
      by_cases hc : s'.length = 1 ∨ (s'.getLastD 0) &&& 127 ≠ 0
      · rw [if_pos hc] at h; cases h
      · rw [if_neg hc] at h
        cases hr : revFindNonzeroIdx s'.dropLast with
        | none => rw [hr] at h; cases h
        | some j =>
          rw [hr] at h
          injection h with h1 h2
          subst h1
          subst h2
          have hj : j < s'.dropLast.length := revFindNonzeroIdx_lt _ j hr
          rw [List.length_dropLast] at hj
          have hpos : 0 < s'.length := List.length_pos.mpr hnil
          exact ⟨by omega, by omega, h5, hle⟩
  · intro h
    simp [tryFromSlice, h]

/-- Witness for C10: on the input `[0x00, 0xC8, 0x2C]`, `find_loose`
returns the nonempty 1-byte prefix with clear continuation bit. -/
theorem C10_find_loose_safety_witness :
    ([0] : List Nat) ≠ [] ∧ ([0] : List Nat).length ≤ 5 ∧
    (([0] : List Nat).getLastD 0) &&& 128 = 0 ∧
    ([0] : List Nat) = ([0, 200, 44] : List Nat).take ([0] : List Nat).length :=
  (C10_find_loose_safety [0, 200, 44]).1 [0] rfl

end Varivari
